import Mathlib

/-!
Shallow embedding of `path-tool` (src/src/main.rs): a command-line utility
that edits, filters, and prints colon-delimited PATH-like strings.

Strings are modelled as `List Char` (`Str`).  Each definition mirrors the
Rust function of the same name in src/src/main.rs; filesystem access is
modelled by a `FileSystem` oracle supplying the results of the std-library
primitives (`Path::exists`, `fs::metadata`, `fs::canonicalize`).  The
analyzer functions exercised by src/src/tests.rs (`parse_raw_path`,
`get_duplicate_dirs`) are absent from src/src/main.rs and are modelled from
the spec, as marked in their doc comments.
-/

namespace PathTool

/-- Strings are modelled as lists of characters. -/
abbrev Str := List Char

/-- Mirrors `fn remove(path, dir)`: `path.retain(|x| x != dir)` removes every
occurrence of `dir`. -/
def remove (path : List Str) (dir : Str) : List Str :=
  path.filter (fun x => x != dir)

/-- Mirrors `fn add_unique(path, dir)`: skip empty `dir`; linear search for an
equal entry, returning unchanged when found; otherwise push at the end. -/
def add_unique (path : List Str) (dir : Str) : List Str :=
  if dir.isEmpty then path
  else if dir ∈ path then path
  else path ++ [dir]

/-- Mirrors `fn add_last(path, dir)`: remove all occurrences, then push. -/
def add_last (path : List Str) (dir : Str) : List Str :=
  remove path dir ++ [dir]

/-- Mirrors `fn add_all_last(path, other)`. -/
def add_all_last (path : List Str) (other : List Str) : List Str :=
  other.foldl add_last path

/-- Mirrors `fn add_all_unique(path, other)`. -/
def add_all_unique (path : List Str) (other : List Str) : List Str :=
  other.foldl add_unique path

/-- Mirrors the loop body of `fn parse_path`: while `remaining` is nonempty,
find the first `:` (`takeWhile`/`dropWhile` mirror `find` + slicing), insert
the segment before it with `add_unique`, and continue after the colon; when no
colon remains the whole rest is inserted and the loop ends. -/
def parse_path_go (path : List Str) (remaining : Str) : List Str :=
  match remaining with
  | [] => path
  | c :: cs =>
    let seg := (c :: cs).takeWhile (fun ch => ch != ':')
    match h : (c :: cs).dropWhile (fun ch => ch != ':') with
    | [] => add_unique path seg
    | _ :: rest2 => parse_path_go (add_unique path seg) rest2
termination_by remaining.length
decreasing_by
  simp only [List.length_cons]
  have hle : ∀ l : Str, (l.dropWhile (fun ch => ch != ':')).length ≤ l.length := by
    intro l
    induction l with
    | nil => simp [List.dropWhile]
    | cons a as iha =>
      by_cases hp : (a != ':') = true
      · simp only [List.dropWhile, hp]
        exact Nat.le_succ_of_le iha
      · simp [List.dropWhile, hp]
  have hl := hle (c :: cs)
  rw [h] at hl
  simpa [List.length_cons] using Nat.lt_of_lt_of_le (Nat.lt_succ_self _) hl

/-- Mirrors `fn parse_path(source)`. -/
def parse_path (source : Str) : List Str :=
  parse_path_go [] source

/-- Mirrors `fn to_string(path)`: `path.join(":")`. -/
def to_string (path : List Str) : Str :=
  List.intercalate [':'] path

/-- Mirrors the itertools adapter `.unique()` used by `filter` and
`normalize`: keep the first occurrence of each value, tracked by a seen-set
(modelled as a list, membership by equality). -/
def unique_go (seen : List Str) : List Str → List Str
  | [] => []
  | x :: xs => if x ∈ seen then unique_go seen xs else x :: unique_go (x :: seen) xs

/-- The `.unique()` adapter starting from an empty seen-set. -/
def unique (l : List Str) : List Str := unique_go [] l

/-- Mirrors `fn exec_new(directories)`: fold each argument through
`parse_path` and `add_all_last`, starting from the empty list; the current
environment path is not an input at all. -/
def exec_new (directories : List Str) : List Str :=
  directories.foldl (fun path arg => add_all_last path (parse_path arg)) []

/-- Mirrors `fn exec_add(current, directories)`: merge the arguments exactly
as `exec_new` does, then `add_all_unique` the current path behind them. -/
def exec_add (current : List Str) (directories : List Str) : List Str :=
  add_all_unique
    (directories.foldl (fun path arg => add_all_last path (parse_path arg)) [])
    current

/-- Mirrors `fn exec_append(current, directories)`: start from the current
path via `add_all_unique` into an empty list, then merge the arguments exactly
as `exec_new` does. -/
def exec_append (current : List Str) (directories : List Str) : List Str :=
  directories.foldl (fun path arg => add_all_last path (parse_path arg))
    (add_all_unique [] current)

/-- Filesystem I/O errors; their payload is never inspected by the program,
so they are modelled by a unit value. -/
abbrev IOErr := Unit

/-- Result of `std::fs::metadata`; the program only reads `is_dir`. -/
structure Meta where
  is_dir : Bool

/-- Oracle supplying the results of the std-library filesystem primitives used
by the program.  `pathExists` models `Path::exists()` and `metadata` models
`fs::metadata` (both follow symlinks, so a symlink to a directory has
directory metadata and a broken symlink has `pathExists = false`);
`canonical` models `fs::canonicalize` followed by the `to_str` conversion
(`Except.error` = canonicalization failed, `some s` = canonical path
representable as a string, `none` = not representable). -/
structure FileSystem where
  pathExists : Str → Bool
  metadata : Str → Except IOErr Meta
  canonical : Str → Except IOErr (Option Str)

/-- Mirrors `fn is_valid(path)`: `Ok(false)` when the path does not exist,
otherwise `fs::metadata(path).map(|d| d.is_dir())` with the error propagated. -/
def is_valid (fs : FileSystem) (path : Str) : Except IOErr Bool :=
  if !(fs.pathExists path) then .ok false
  else (fs.metadata path).map Meta.is_dir

/-- Mirrors `fn canonicalize(path)`: `Ok(None)` when `is_valid` is false (its
error propagated by `?`); otherwise `fs::canonicalize` (error propagated by
`?`), whose `to_str` conversion falls back, via `or_else`, to the original
`path` when it yields no string. -/
def canonicalize (fs : FileSystem) (path : Str) : Except IOErr (Option Str) :=
  match is_valid fs path with
  | .error e => .error e
  | .ok false => .ok none
  | .ok true =>
    match fs.canonical path with
    | .error e => .error e
    | .ok copt => .ok (some (copt.getD path))

/-- Mirrors `fn filter(path)`: keep entries with `is_valid(x).ok() == Some(true)`
(errors absorbed by `.ok()`), then apply the `.unique()` adapter. -/
def filter (fs : FileSystem) (path : List Str) : List Str :=
  unique (path.filter (fun x => (is_valid fs x).toOption == some true))

/-- Mirrors `fn normalize(path)`: each entry is mapped through
`canonicalize(&x).unwrap().unwrap_or_default()`; the `unwrap()` panics when
`canonicalize` returns an error, modelled by the whole function returning
`none`; otherwise `unwrap_or_default` turns `None` into the empty string,
empty strings are filtered out, and the `.unique()` adapter is applied. -/
def normalize (fs : FileSystem) (path : List Str) : Option (List Str) :=
  match path.mapM (fun x => (canonicalize fs x).toOption) with
  | none => none
  | some opts =>
    some (unique ((opts.map (fun o => o.getD [])).filter (fun x => !x.isEmpty)))

/-- Mirrors `fn apply_filters(path, filter_requested, normalize_requested)`;
`Option` propagates the possible panic from `normalize`. -/
def apply_filters (fs : FileSystem) (path : List Str)
    (filter_requested normalize_requested : Bool) : Option (List Str) :=
  if filter_requested then some (filter fs path)
  else if normalize_requested then normalize fs path
  else some path

/-- Splitting a character list at every colon; the standard reading of
"split `source` on `:`" used to state parser properties. -/
def splitOnColon : Str → List Str
  | [] => [[]]
  | c :: cs =>
    if c = ':' then [] :: splitOnColon cs
    else
      match splitOnColon cs with
      | [] => [[c]]
      | s :: ss => (c :: s) :: ss

/-- Modelled from the spec: `parseRaw(source)` (the function `parse_raw_path`
is exercised by src/src/tests.rs but absent from src/src/main.rs): split on
`:`, drop empty segments, keep all duplicates, preserve order. -/
def parse_raw_path (source : Str) : List Str :=
  (splitOnColon source).filter (fun seg => !seg.isEmpty)

/-- Modelled from the spec: the seen-set loop of `findDuplicates(rawList)`
(the analyzer behind `get_duplicate_dirs`, exercised by src/src/tests.rs but
absent from src/src/main.rs): walk the raw list keeping a seen-set keyed by
exact string equality, reporting an entry exactly when it was seen before. -/
def find_duplicates_go (seen : List Str) : List Str → List Str
  | [] => []
  | x :: xs =>
    if x ∈ seen then x :: find_duplicates_go (x :: seen) xs
    else find_duplicates_go (x :: seen) xs

/-- Modelled from the spec: `get_duplicate_dirs` runs `findDuplicates` on the
raw (duplicate-preserving) parse of the path string. -/
def get_duplicate_dirs (source : Str) : List Str :=
  find_duplicates_go [] (parse_raw_path source)

/-- The claim-level reading of the duplicate report: the entries standing at a
position whose value already occurs earlier in the list (second occurrence
onward), kept in original order. -/
def duplicates_spec (l : List Str) : List Str :=
  ((List.range l.length).filter (fun i => decide (l.getD i [] ∈ l.take i))).map
    (fun i => l.getD i [])

/-- Refinement spec written from the spec text for `parseUnique`: the
insert-unique primitive, "skip if already present, else append" (the spec
states empty segments are dropped before insertion, so no emptiness check
appears here). -/
def insert_unique_spec (list : List Str) (dir : Str) : List Str :=
  if dir ∈ list then list else list ++ [dir]

/-- Refinement spec written from the spec text for `parseUnique(source)`:
split `source` on `:`, drop empty segments, insert each remaining segment
into an initially-empty list with insert-unique semantics. -/
def parse_unique_spec (source : Str) : List Str :=
  ((splitOnColon source).filter (fun seg => !seg.isEmpty)).foldl insert_unique_spec []

/-- Concrete oracle: the path exists but its metadata is unreadable
(an I/O error), e.g. a permissions race on an existing entry. -/
def fs_meta_err : FileSystem :=
  ⟨fun _ => true, fun _ => .error (), fun _ => .ok none⟩

/-- Concrete oracle: no path exists. -/
def fs_absent : FileSystem :=
  ⟨fun _ => false, fun _ => .error (), fun _ => .error ()⟩

/-- Concrete oracle: every path exists but metadata reads fail. -/
def fs_exists_unreadable : FileSystem :=
  ⟨fun _ => true, fun _ => .error (), fun _ => .ok none⟩

/-- Concrete oracle: every path is an existing directory. -/
def fs_exists_dir : FileSystem :=
  ⟨fun _ => true, fun _ => .ok ⟨true⟩, fun _ => .ok none⟩

theorem splitOnColon_ne_nil (s : Str) : splitOnColon s ≠ [] := by
  match s with
  | [] => simp [splitOnColon]
  | c :: cs =>
    by_cases h : c = ':'
    · simp [splitOnColon, h]
    · simp only [splitOnColon, h, if_false]
      match splitOnColon cs with
      | [] => simp
      | s :: ss => simp

theorem splitOnColon_dropWhile_nil (s : Str)
    (h : s.dropWhile (fun ch => ch != ':') = []) :
    splitOnColon s = [s.takeWhile (fun ch => ch != ':')] := by
  induction s with
  | nil => simp [splitOnColon]
  | cons c cs ih =>
    by_cases hc : c = ':'
    · exfalso
      rw [List.dropWhile_cons] at h
      simp [hc] at h
    · rw [List.dropWhile_cons] at h
      simp only [hc, bne_iff_ne, ne_eq, not_false_iff, if_true] at h
      have := ih (by simpa using h)
      simp only [splitOnColon, hc, if_false, this, List.takeWhile_cons]
      simp [hc]

theorem splitOnColon_dropWhile_cons (s : Str) (c : Char) (r : Str)
    (h : s.dropWhile (fun ch => ch != ':') = c :: r) :
    splitOnColon s = s.takeWhile (fun ch => ch != ':') :: splitOnColon r := by
  induction s with
  | nil => simp [List.dropWhile] at h
  | cons a as ih =>
    by_cases ha : a = ':'
    · rw [List.dropWhile_cons] at h
      simp only [ha] at h
      simp at h
      obtain ⟨h1, h2⟩ := h
      subst h1; subst h2
      simp [splitOnColon, ha, List.takeWhile_cons]
    · rw [List.dropWhile_cons] at h
      simp only [ha, bne_iff_ne, ne_eq, not_false_iff, if_true] at h
      have := ih h
      simp only [splitOnColon, ha, if_false, this, List.takeWhile_cons]
      simp [ha]

theorem parse_path_go_eq (s : Str) (path : List Str) :
    parse_path_go path s = (splitOnColon s).foldl add_unique path := by
  induction path, s using parse_path_go.induct with
  | case1 path => simp [parse_path_go, splitOnColon, add_unique]
  | case2 path c cs h =>
    rw [parse_path_go]
    split
    · rw [splitOnColon_dropWhile_nil _ h]
      simp [List.foldl]
    · rename_i c2 rest2 heq
      rw [h] at heq
      exact absurd heq (by simp)
  | case3 path c cs seg c2 rest2 h ih =>
    rw [parse_path_go]
    split
    · rename_i heq
      rw [h] at heq
      exact absurd heq (by simp)
    · rename_i c3 rest3 heq
      rw [h] at heq
      injection heq with h1 h2
      subst h2
      rw [splitOnColon_dropWhile_cons _ _ _ h]
      simp [List.foldl, ih]

theorem parse_path_eq (s : Str) :
    parse_path s = (splitOnColon s).foldl add_unique [] :=
  parse_path_go_eq s []

theorem add_unique_nil (path : List Str) : add_unique path [] = path := by
  simp [add_unique]

theorem add_unique_of_mem {path : List Str} {dir : Str} (h : dir ∈ path) :
    add_unique path dir = path := by
  simp [add_unique, h]

theorem add_unique_of_not_mem {path : List Str} {dir : Str}
    (h1 : dir ≠ []) (h2 : dir ∉ path) :
    add_unique path dir = path ++ [dir] := by
  simp [add_unique, h1, h2, List.isEmpty_iff]

theorem mem_add_unique {path : List Str} {dir d : Str}
    (h : d ∈ add_unique path dir) : d ∈ path ∨ (d = dir ∧ d ≠ []) := by
  by_cases he : dir.isEmpty
  · left; simpa [add_unique, he] using h
  · by_cases hm : dir ∈ path
    · left; simpa [add_unique, he, hm] using h
    · rw [add_unique, if_neg (by simp [he]), if_neg hm] at h
      rcases List.mem_append.mp h with h' | h'
      · exact Or.inl h'
      · right
        have hd : d = dir := by simpa using h'
        refine ⟨hd, ?_⟩
        rw [hd]
        intro hnil
        rw [hnil] at he
        exact he rfl

theorem add_unique_nodup {path : List Str} {dir : Str} (h : path.Nodup) :
    (add_unique path dir).Nodup := by
  by_cases he : dir.isEmpty
  · simpa [add_unique, he] using h
  · by_cases hm : dir ∈ path
    · simpa [add_unique, he, hm] using h
    · rw [add_unique, if_neg (by simp [he]), if_neg hm]
      simpa [List.nodup_append] using ⟨h, hm⟩

theorem add_last_nodup {path : List Str} {dir : Str} (h : path.Nodup) :
    (add_last path dir).Nodup := by
  rw [add_last, remove]
  refine List.Nodup.append (h.filter _) (List.nodup_singleton dir) ?_
  intro x hx hx'
  have : x = dir := by simpa using hx'
  subst this
  have := List.of_mem_filter hx
  simp at this

theorem add_all_unique_nodup {other path : List Str} (h : path.Nodup) :
    (add_all_unique path other).Nodup := by
  induction other generalizing path with
  | nil => exact h
  | cons d rest ih => exact ih (add_unique_nodup h)

theorem add_all_last_nodup {other path : List Str} (h : path.Nodup) :
    (add_all_last path other).Nodup := by
  induction other generalizing path with
  | nil => exact h
  | cons d rest ih => exact ih (add_last_nodup h)

theorem mem_add_all_unique {other path : List Str} {d : Str}
    (h : d ∈ add_all_unique path other) :
    d ∈ path ∨ (d ∈ other ∧ d ≠ []) := by
  induction other generalizing path with
  | nil => exact Or.inl h
  | cons e rest ih =>
    rcases ih h with h' | h'
    · rcases mem_add_unique h' with h'' | ⟨h1, h2⟩
      · exact Or.inl h''
      · exact Or.inr ⟨by simp [h1], h2⟩
    · exact Or.inr ⟨by simp [h'.1], h'.2⟩

theorem add_all_unique_eq_append {other : List Str} (acc : List Str)
    (hn : other.Nodup) (hne : ∀ d ∈ other, d ≠ []) :
    add_all_unique acc other = acc ++ other.filter (fun d => decide (d ∉ acc)) := by
  induction other generalizing acc with
  | nil => simp [add_all_unique]
  | cons d rest ih =>
    have hd : d ∉ rest := (List.nodup_cons.mp hn).1
    have hrest : rest.Nodup := (List.nodup_cons.mp hn).2
    have hdne : d ≠ [] := hne d (by simp)
    have hne2 : ∀ e ∈ rest, e ≠ [] := fun e he => hne e (by simp [he])
    by_cases hm : d ∈ acc
    · rw [show add_all_unique acc (d :: rest) = add_all_unique acc rest from by
        simp [add_all_unique, add_unique_of_mem hm]]
      rw [ih acc hrest hne2]
      congr 1
      rw [List.filter_cons]
      simp [hm]
    · rw [show add_all_unique acc (d :: rest) = add_all_unique (acc ++ [d]) rest from by
        simp [add_all_unique, add_unique_of_not_mem hdne hm]]
      rw [ih (acc ++ [d]) hrest hne2]
      have hcong : rest.filter (fun e => decide (e ∉ acc ++ [d]))
          = rest.filter (fun e => decide (e ∉ acc)) := by
        refine List.filter_congr ?_
        intro e he
        have hed : e ≠ d := fun h => hd (h ▸ he)
        simp [List.mem_append, hed]
      rw [hcong, List.filter_cons]
      simp [hm]

theorem remove_eq_filter (path : List Str) (dir : Str) :
    remove path dir = path.filter (fun x => decide (x ≠ dir)) := by
  rw [remove]
  refine List.filter_congr ?_
  intro e _
  by_cases h : e = dir <;> simp [h]

theorem add_all_last_eq_append (other : List Str) (base : List Str) :
    add_all_last base other
      = base.filter (fun d => decide (d ∉ other)) ++ add_all_last [] other := by
  induction other generalizing base with
  | nil =>
    simp [add_all_last]
  | cons d rest ih =>
    have step : ∀ b : List Str,
        add_all_last b (d :: rest) = add_all_last (add_last b d) rest := fun b => rfl
    rw [step base, ih (add_last base d), step [], ih (add_last [] d)]
    rw [show add_last [] d = [d] from rfl]
    rw [add_last, remove_eq_filter, List.filter_append, List.filter_filter]
    have hcong : base.filter (fun a => decide (a ∉ rest) && decide (a ≠ d))
        = base.filter (fun a => decide (a ∉ d :: rest)) := by
      refine List.filter_congr ?_
      intro e _
      by_cases h1 : e = d <;> by_cases h2 : e ∈ rest <;> simp [h1, h2]
    rw [hcong]
    simp [List.append_assoc]

theorem add_all_last_append (base l1 l2 : List Str) :
    add_all_last base (l1 ++ l2) = add_all_last (add_all_last base l1) l2 :=
  List.foldl_append ..

theorem foldl_add_all_last_eq (args : List Str) (base : List Str) :
    args.foldl (fun path arg => add_all_last path (parse_path arg)) base
      = add_all_last base ((args.map parse_path).flatten) := by
  induction args generalizing base with
  | nil => simp [add_all_last]
  | cons a rest ih =>
    simp only [List.foldl_cons, List.map_cons, List.flatten_cons]
    rw [ih (add_all_last base (parse_path a)), add_all_last_append]

theorem exec_new_eq_flatten (args : List Str) :
    exec_new args = add_all_last [] ((args.map parse_path).flatten) :=
  foldl_add_all_last_eq args []

theorem splitOnColon_colon_free (s : Str) :
    ∀ seg ∈ splitOnColon s, ':' ∉ seg := by
  induction s with
  | nil => intro seg h; simp [splitOnColon] at h; simp [h]
  | cons c cs ih =>
    intro seg h
    by_cases hc : c = ':'
    · rw [splitOnColon, if_pos hc] at h
      rcases List.mem_cons.mp h with h' | h'
      · simp [h']
      · exact ih seg h'
    · rw [splitOnColon, if_neg hc] at h
      rcases hs : splitOnColon cs with _ | ⟨s1, ss⟩
      · exact absurd hs (splitOnColon_ne_nil cs)
      · rw [hs] at h
        rcases List.mem_cons.mp h with h' | h'
        · subst h'
          intro hmem
          rcases List.mem_cons.mp hmem with h'' | h''
          · exact hc h''.symm
          · exact ih s1 (by simp [hs]) h''
        · exact ih seg (by simp [hs, h'])

theorem parse_path_entries (s : Str) :
    ∀ d ∈ parse_path s, d ≠ [] ∧ ':' ∉ d := by
  intro d hd
  rw [parse_path_eq] at hd
  have hmem := @mem_add_all_unique (splitOnColon s) [] d hd
  rcases hmem with h | ⟨h1, h2⟩
  · simp at h
  · exact ⟨h2, splitOnColon_colon_free s d h1⟩

theorem parse_path_nodup (s : Str) : (parse_path s).Nodup := by
  rw [parse_path_eq]
  exact @add_all_unique_nodup (splitOnColon s) [] List.nodup_nil

theorem add_all_unique_nil_eq (l : List Str)
    (hn : l.Nodup) (hne : ∀ d ∈ l, d ≠ []) :
    add_all_unique [] l = l := by
  rw [add_all_unique_eq_append [] hn hne]
  simp

theorem unique_go_spec (l : List Str) :
    ∀ seen : List Str, (unique_go seen l).Nodup ∧ ∀ y ∈ unique_go seen l, y ∉ seen := by
  induction l with
  | nil => intro seen; simp [unique_go]
  | cons x xs ih =>
    intro seen
    by_cases hx : x ∈ seen
    · rw [unique_go, if_pos hx]
      exact (ih seen).imp id (fun h y hy => h y hy)
    · rw [unique_go, if_neg hx]
      obtain ⟨hnd, hmem⟩ := ih (x :: seen)
      constructor
      · rw [List.nodup_cons]
        exact ⟨fun hin => (hmem x hin) (by simp), hnd⟩
      · intro y hy
        rcases List.mem_cons.mp hy with h' | h'
        · exact h' ▸ hx
        · intro hys
          exact (hmem y h') (by simp [hys])

theorem unique_nodup (l : List Str) : (unique l).Nodup :=
  (unique_go_spec l []).1

theorem to_string_nil : to_string [] = [] := by
  simp [to_string, List.intercalate]

theorem to_string_singleton (x : Str) : to_string [x] = x := by
  simp [to_string, List.intercalate, List.intersperse]

theorem to_string_cons_cons (x y : Str) (zs : List Str) :
    to_string (x :: y :: zs) = x ++ ':' :: to_string (y :: zs) := by
  simp [to_string, List.intercalate, List.intersperse]

theorem splitOnColon_colon_free_id (x : Str) (h : ':' ∉ x) :
    splitOnColon x = [x] := by
  induction x with
  | nil => simp [splitOnColon]
  | cons c cs ih =>
    have hc : c ≠ ':' := fun hh => h (by simp [hh])
    rw [splitOnColon, if_neg hc, ih (fun hh => h (by simp [hh]))]

theorem splitOnColon_append_colon (x : Str) (rest : Str) (h : ':' ∉ x) :
    splitOnColon (x ++ ':' :: rest) = x :: splitOnColon rest := by
  induction x with
  | nil => simp [splitOnColon]
  | cons c cs ih =>
    have hc : c ≠ ':' := fun hh => h (by simp [hh])
    rw [List.cons_append, splitOnColon, if_neg hc, ih (fun hh => h (by simp [hh]))]

theorem splitOnColon_to_string (l : List Str)
    (hcf : ∀ d ∈ l, ':' ∉ d) (hne : l ≠ []) :
    splitOnColon (to_string l) = l := by
  induction l with
  | nil => exact absurd rfl hne
  | cons x rest ih =>
    match rest with
    | [] =>
      rw [to_string_singleton]
      exact splitOnColon_colon_free_id x (hcf x (by simp))
    | y :: zs =>
      rw [to_string_cons_cons]
      rw [splitOnColon_append_colon _ _ (hcf x (by simp))]
      rw [ih (fun d hd => hcf d (by simp [hd])) (by simp)]

theorem parse_path_to_string (l : List Str)
    (hn : l.Nodup) (hne : ∀ d ∈ l, d ≠ []) (hcf : ∀ d ∈ l, ':' ∉ d) :
    parse_path (to_string l) = l := by
  match l with
  | [] => rw [to_string_nil]; rw [parse_path_eq]; simp [splitOnColon, add_unique]
  | x :: rest =>
    rw [parse_path_eq, splitOnColon_to_string _ hcf (by simp)]
    exact add_all_unique_nil_eq _ hn hne

theorem find_duplicates_go_eq (l : List Str) : ∀ seen : List Str,
    find_duplicates_go seen l
      = ((List.range l.length).filter
          (fun i => decide (l.getD i [] ∈ seen) || decide (l.getD i [] ∈ l.take i))).map
        (fun i => l.getD i []) := by
  induction l with
  | nil => intro seen; simp [find_duplicates_go]
  | cons x xs ih =>
    intro seen
    rw [List.length_cons, List.range_succ_eq_map, List.filter_cons]
    have hmap : (List.filter
        (fun i => decide ((x :: xs).getD i [] ∈ seen)
          || decide ((x :: xs).getD i [] ∈ (x :: xs).take i))
        ((List.range xs.length).map Nat.succ))
        = ((List.range xs.length).filter
            (fun i => decide (xs.getD i [] ∈ x :: seen)
              || decide (xs.getD i [] ∈ xs.take i))).map Nat.succ := by
      rw [List.filter_map]
      congr 1
      refine List.filter_congr ?_
      intro e _
      simp only [Function.comp_apply, List.getD_cons_succ, List.take_succ_cons,
        List.mem_cons, ← Bool.decide_or]
      rw [decide_eq_decide]
      tauto
    by_cases hx : x ∈ seen
    · rw [find_duplicates_go, if_pos hx]
      rw [ih (x :: seen)]
      have hc : (decide ((x :: xs).getD 0 [] ∈ seen)
          || decide ((x :: xs).getD 0 [] ∈ (x :: xs).take 0)) = true := by
        simpa using hx
      rw [if_pos hc, hmap]
      simp [List.map_map, Function.comp]
    · rw [find_duplicates_go, if_neg hx]
      rw [ih (x :: seen)]
      have hc : (decide ((x :: xs).getD 0 [] ∈ seen)
          || decide ((x :: xs).getD 0 [] ∈ (x :: xs).take 0)) = false := by
        simpa using hx
      rw [if_neg (by rw [hc]; simp), hmap]
      simp [List.map_map, Function.comp]

theorem find_duplicates_eq_spec (l : List Str) :
    find_duplicates_go [] l = duplicates_spec l := by
  rw [find_duplicates_go_eq l [], duplicates_spec]
  congr 1

theorem filter_nodup (fs : FileSystem) (l : List Str) : (filter fs l).Nodup :=
  unique_nodup _

theorem normalize_nodup (fs : FileSystem) (l : List Str) :
    ((normalize fs l).getD []).Nodup := by
  rw [normalize]
  cases h : l.mapM (fun x => (canonicalize fs x).toOption) with
  | none => simp
  | some opts =>
    simpa using unique_nodup ((opts.map (fun o => o.getD [])).filter (fun x => !x.isEmpty))

theorem exec_new_nodup (args : List Str) : (exec_new args).Nodup := by
  rw [exec_new_eq_flatten]
  exact add_all_last_nodup List.nodup_nil

theorem exec_add_eq (current args : List Str) :
    exec_add current args = add_all_unique (exec_new args) current := rfl

theorem exec_append_eq (current args : List Str) :
    exec_append current args
      = add_all_last (add_all_unique [] current) ((args.map parse_path).flatten) :=
  foldl_add_all_last_eq args (add_all_unique [] current)

theorem exec_add_nodup (current args : List Str) : (exec_add current args).Nodup := by
  rw [exec_add_eq]
  exact add_all_unique_nodup (exec_new_nodup args)

theorem exec_append_nodup (current args : List Str) : (exec_append current args).Nodup := by
  rw [exec_append_eq]
  exact add_all_last_nodup (add_all_unique_nodup List.nodup_nil)

theorem foldl_add_unique_filter (segs : List Str) : ∀ acc : List Str,
    segs.foldl add_unique acc
      = (segs.filter (fun seg => !seg.isEmpty)).foldl insert_unique_spec acc := by
  induction segs with
  | nil => intro acc; rfl
  | cons seg rest ih =>
    intro acc
    by_cases he : seg.isEmpty
    · have hnil : seg = [] := by simpa using he
      subst hnil
      rw [List.foldl_cons, add_unique_nil, List.filter_cons]
      simp only [List.isEmpty_nil, Bool.not_true, Bool.false_eq_true, if_false]
      exact ih acc
    · rw [List.foldl_cons, List.filter_cons]
      have hb : (!seg.isEmpty) = true := by simpa using he
      rw [if_pos hb, List.foldl_cons]
      have hstep : add_unique acc seg = insert_unique_spec acc seg := by
        rw [add_unique, insert_unique_spec, if_neg (by simpa using he)]
      rw [hstep]
      exact ih _

/-- C1: for every raw path list, the duplicate report of `findDuplicates`
(seen-set keyed by exact string equality) contains exactly each entry from
its second occurrence onward, in the original order — the entries whose value
already occurs strictly earlier in the list — and the first occurrence of a
value is never reported; for the raw list `["a","b","a","a"]` the report is
`["a","a"]`. -/
theorem duplicates_report_spec :
    (∀ raw : List Str, find_duplicates_go [] raw = duplicates_spec raw)
    ∧ find_duplicates_go [] ["a".toList, "b".toList, "a".toList, "a".toList]
        = ["a".toList, "a".toList] :=
  ⟨find_duplicates_eq_spec, by decide⟩

/-- C2: contrary to the claim that Normalize absorbs canonicalization errors
by dropping the entry, `normalize` calls `canonicalize(&x).unwrap()`, which
panics when `canonicalize` returns an error: on a filesystem where the path
`"p"` exists but its metadata is unreadable, `normalize` of the one-entry
list `["p"]` panics (modelled as `none`) instead of returning the empty
list. -/
theorem normalize_error_panics : normalize fs_meta_err [['p']] = none := rfl

/-- C3 counterexample: for the single compound argument `"x:y:x"`, New yields
`["x","y"]` — not `["y","x"]` as the claim states — because each argument is
first parsed with `parse_path`, whose insert-unique keeps the first
occurrence within a single compound argument. -/
theorem new_compound_counterexample :
    exec_new ["x:y:x".toList] ≠ ["y".toList, "x".toList] := by
  simp only [exec_new, List.foldl, parse_path_eq]
  decide

/-- C3 amended: the New operation builds its result solely from the
positional arguments, each argument first parsed with `parseUnique`
(first-occurrence-wins within one compound argument), the parsed directories
then merged left-to-right with insert-last-wins semantics, ignoring the
current environment path; for the single compound argument `"x:y:x"` New
yields `["x","y"]`, while for the three separate arguments `"x","y","x"` the
last mention wins and New yields `["y","x"]`. -/
theorem exec_new_merge :
    (∀ args : List Str, exec_new args = add_all_last [] ((args.map parse_path).flatten))
    ∧ exec_new ["x:y:x".toList] = ["x".toList, "y".toList]
    ∧ exec_new ["x".toList, "y".toList, "x".toList] = ["y".toList, "x".toList] :=
  ⟨exec_new_eq_flatten,
   by simp only [exec_new, List.foldl, parse_path_eq]; decide,
   by simp only [exec_new, List.foldl, parse_path_eq]; decide⟩

/-- C4: every path list produced by `parse_path` and by the New, Add and
Append operations, and every list returned by the Filter or Normalize
post-processing step, contains no two equal entries (`List.Nodup`, i.e.
entries at distinct indices differ); for Normalize the list returned when it
does not panic is meant (`getD` with default `[]`). -/
theorem pathlist_nodup_invariant :
    (∀ s : Str, (parse_path s).Nodup)
    ∧ (∀ args : List Str, (exec_new args).Nodup)
    ∧ (∀ current args : List Str, (exec_add current args).Nodup)
    ∧ (∀ current args : List Str, (exec_append current args).Nodup)
    ∧ (∀ (fs : FileSystem) (l : List Str), (filter fs l).Nodup)
    ∧ (∀ (fs : FileSystem) (l : List Str), ((normalize fs l).getD []).Nodup) :=
  ⟨parse_path_nodup, exec_new_nodup, exec_add_nodup, exec_append_nodup,
   filter_nodup, normalize_nodup⟩

/-- C5: for every input string, `parse_path` equals the spec-side
`parse_unique_spec` — split on `:`, drop empty segments, insert each
remaining segment with insert-unique (skip if already present, else append) —
so order is preserved and the first occurrence wins; it is a total Lean
function, and `parseUnique(":a::b:") = ["a","b"]`,
`parseUnique("a:b:a:c:b") = ["a","b","c"]`. -/
theorem parse_path_spec :
    (∀ s : Str, parse_path s = parse_unique_spec s)
    ∧ parse_path ":a::b:".toList = ["a".toList, "b".toList]
    ∧ parse_path "a:b:a:c:b".toList = ["a".toList, "b".toList, "c".toList] :=
  ⟨fun s => by rw [parse_path_eq, parse_unique_spec]; exact foldl_add_unique_filter _ [],
   by rw [parse_path_eq]; decide,
   by rw [parse_path_eq]; decide⟩

/-- C6: for every current path (a path list: duplicate-free with nonempty
entries, as produced by `parse_path`) and argument list, Add returns the
argument-derived list (merged as in New) followed by exactly the current-path
entries not already present, in their original order; current-path entries
never evict or move argument entries. -/
theorem exec_add_spec (current args : List Str)
    (hn : current.Nodup) (hne : ∀ d ∈ current, d ≠ []) :
    exec_add current args
      = exec_new args ++ current.filter (fun d => decide (d ∉ exec_new args)) := by
  rw [exec_add_eq]
  exact add_all_unique_eq_append (exec_new args) hn hne

/-- C6 witness: for current `["b","a","c"]` and arguments `["d","a"]`, Add
yields `["d","a","b","c"]`. -/
theorem exec_add_spec_witness :
    exec_add ["b".toList, "a".toList, "c".toList] ["d".toList, "a".toList]
      = ["d".toList, "a".toList, "b".toList, "c".toList] := by
  rw [exec_add_spec ["b".toList, "a".toList, "c".toList] ["d".toList, "a".toList]
    (by decide) (by decide)]
  simp only [exec_new, List.foldl, parse_path_eq]
  decide

/-- C7: for every current path and argument list, Append starts from the
current path inserted with insert-unique and merges the parsed arguments with
insert-last-wins, so the argument directories end up at the back and a
current-path entry mentioned among the arguments is dropped from its earlier
position (re-appearing at its merged position at the back); for current
`["b","a","c"]` and arguments `["d","b"]` the result is `["a","c","d","b"]`. -/
theorem exec_append_spec :
    (∀ current args : List Str,
      exec_append current args
        = (add_all_unique [] current).filter
            (fun d => decide (d ∉ (args.map parse_path).flatten))
          ++ exec_new args)
    ∧ exec_append ["b".toList, "a".toList, "c".toList] ["d".toList, "b".toList]
        = ["a".toList, "c".toList, "d".toList, "b".toList] := by
  constructor
  · intro current args
    rw [exec_append_eq, add_all_last_eq_append, exec_new_eq_flatten]
  · simp only [exec_append, List.foldl, parse_path_eq]
    decide

/-- C8: for every string `s`, parsing the formatted parse gives the parse
back — `parseUnique(format(parseUnique(s))) = parseUnique(s)` — even though
`format(parseUnique(s))` need not equal `s`, witnessed by `s = "a:a"`. -/
theorem parse_format_roundtrip :
    (∀ s : Str, parse_path (to_string (parse_path s)) = parse_path s)
    ∧ to_string (parse_path "a:a".toList) ≠ "a:a".toList := by
  constructor
  · intro s
    exact parse_path_to_string (parse_path s) (parse_path_nodup s)
      (fun d hd => (parse_path_entries s d hd).1)
      (fun d hd => (parse_path_entries s d hd).2)
  · rw [parse_path_eq]
    decide

/-- C9: for every filesystem oracle and path, `is_valid` returns `Ok(false)`
when the path does not exist (which, since `Path::exists` follows symlinks,
covers broken symlinks); when the path exists and its metadata is readable it
returns whether the metadata (symlink-following) says directory; and it
returns an error exactly when the path exists but its metadata cannot be
read. -/
theorem is_valid_spec (fs : FileSystem) (path : Str) :
    (fs.pathExists path = false → is_valid fs path = .ok false)
    ∧ (∀ m, fs.pathExists path = true → fs.metadata path = .ok m →
        is_valid fs path = .ok m.is_dir)
    ∧ ((∃ e, is_valid fs path = .error e)
        ↔ fs.pathExists path = true ∧ ∃ e, fs.metadata path = .error e) := by
  refine ⟨?_, ?_, ?_⟩
  · intro h; simp [is_valid, h]
  · intro m hp hm; simp [is_valid, hp, hm, Except.map]
  · by_cases hp : fs.pathExists path
    · cases hm : fs.metadata path with
      | error e => simp [is_valid, hp, hm, Except.map]
      | ok m => simp [is_valid, hp, hm, Except.map]
    · simp only [Bool.not_eq_true] at hp
      simp [is_valid, hp]

/-- C9 witness: on a concrete absent path `is_valid` is `Ok(false)`; on a
concrete existing directory it is `Ok(true)`; on a concrete existing path
with unreadable metadata the error characterization holds. -/
theorem is_valid_spec_witness :
    is_valid fs_absent ['p'] = .ok false
    ∧ is_valid fs_exists_dir ['p'] = .ok true
    ∧ ((∃ e, is_valid fs_exists_unreadable ['p'] = .error e)
        ↔ fs_exists_unreadable.pathExists ['p'] = true
          ∧ ∃ e, fs_exists_unreadable.metadata ['p'] = .error e) :=
  ⟨(is_valid_spec fs_absent ['p']).1 rfl,
   (is_valid_spec fs_exists_dir ['p']).2.1 ⟨true⟩ rfl rfl,
   (is_valid_spec fs_exists_unreadable ['p']).2.2⟩

/-- C10: for every current path string, Add and Append invoked with an empty
argument list each return exactly `parseUnique` of the current path. -/
theorem exec_add_append_identity (s : Str) :
    exec_add (parse_path s) [] = parse_path s
    ∧ exec_append (parse_path s) [] = parse_path s := by
  have hbase : add_all_unique [] (parse_path s) = parse_path s :=
    add_all_unique_nil_eq (parse_path s) (parse_path_nodup s)
      (fun d hd => (parse_path_entries s d hd).1)
  exact ⟨hbase, hbase⟩

end PathTool
